import Mathlib

/-!
Verification of the Mandelbrot plotter (src/main.rs) against its design
specification.  The numeric f64 values of the source are modelled as exact
rationals; `num_complex::Complex<f64>` is modelled by the structure `Cplx`.
The stability test of the source compares the Euclidean norm of the final
iterate with 2.0; over exact arithmetic this is equivalent to comparing the
squared norm with 4, which is what the executable embedding below does (the
equivalence with the genuine Euclidean norm on Mathlib's complex numbers is
proved in the theorems about classification).
-/

/-- Model of `num_complex::Complex<f64>`: a pair of (exact) coordinates. -/
structure Cplx where
  re : ℚ
  im : ℚ
deriving DecidableEq

/-- Componentwise addition, as in `num_complex`. -/
def Cplx.add (a b : Cplx) : Cplx := ⟨a.re + b.re, a.im + b.im⟩

/-- Complex multiplication, as in `num_complex`. -/
def Cplx.mul (a b : Cplx) : Cplx :=
  ⟨a.re * b.re - a.im * b.im, a.re * b.im + a.im * b.re⟩

instance : Add Cplx := ⟨Cplx.add⟩

instance : Mul Cplx := ⟨Cplx.mul⟩

/-- Squared Euclidean norm; the source's `z.norm() <= 2.0` is modelled as
`normSq z ≤ 4`, which is equivalent over exact arithmetic. -/
def Cplx.normSq (a : Cplx) : ℚ := a.re * a.re + a.im * a.im

theorem Cplx.mk_mul_mk (a b c d : ℚ) :
    (⟨a, b⟩ : Cplx) * ⟨c, d⟩ = ⟨a * c - b * d, a * d + b * c⟩ := rfl

theorem Cplx.mk_add_mk (a b c d : ℚ) :
    (⟨a, b⟩ : Cplx) + ⟨c, d⟩ = ⟨a + c, b + d⟩ := rfl

theorem Cplx.normSq_mk (a b : ℚ) : Cplx.normSq ⟨a, b⟩ = a * a + b * b := rfl

/-- State of the loop in `is_stable` (src/main.rs lines 113-119): starting
from `z = 0+0i`, perform `n` iterations of `z ← z*z + c`. -/
def zIter (c : Cplx) : ℕ → Cplx
  | 0 => ⟨0, 0⟩
  | n + 1 => zIter c n * zIter c n + c

/-- Embedding of `is_stable` (src/main.rs lines 113-119): run exactly
`num_iterations` iterations of the Mandelbrot recurrence from `0+0i` and
report whether the final value lies within the threshold. -/
def is_stable (c : Cplx) (num_iterations : ℕ) : Bool :=
  decide (Cplx.normSq (zIter c num_iterations) ≤ 2 ^ 2)

/-- Model of Rust's saturating `f64 as usize` cast used in `complex_matrix`:
truncation toward zero, negative values clamped to 0.  For every rational
this agrees with `Int.toNat ∘ floor`. -/
def usize_of (q : ℚ) : ℕ := (⌊q⌋).toNat

/-- Embedding of `ndarray::linspace a b n`: `n` values `a + step * i`, where
`step = (b - a)/(n - 1)` when `n > 1` and `0` otherwise. -/
def linspace (a b : ℚ) (n : ℕ) : List ℚ :=
  let step := if 1 < n then (b - a) / ((n : ℚ) - 1) else 0
  (List.range n).map (fun (i : ℕ) => a + step * (i : ℚ))

/-- Number of real samples computed in `complex_matrix` (src/main.rs line 94):
`((x_max - x_min) * pixel_density as f64) as usize`. -/
def width_samples (x_min x_max : ℚ) (pixel_density : ℤ) : ℕ :=
  usize_of ((x_max - x_min) * (pixel_density : ℚ))

/-- Number of imaginary samples computed in `complex_matrix` (src/main.rs
line 96). -/
def height_samples (y_min y_max : ℚ) (pixel_density : ℤ) : ℕ :=
  usize_of ((y_max - y_min) * (pixel_density : ℚ))

/-- Embedding of `complex_matrix` (src/main.rs lines 87-111): the row of
index `i` and column `j` carries `Complex::new(re[j], im[i])`. -/
def complex_matrix (x_min x_max y_min y_max : ℚ) (pixel_density : ℤ) :
    List (List Cplx) :=
  let re := linspace x_min x_max (width_samples x_min x_max pixel_density)
  let im := linspace y_min y_max (height_samples y_min y_max pixel_density)
  im.map (fun im_val => re.map (fun re_val => ⟨re_val, im_val⟩))

/-- Embedding of `get_members` (src/main.rs lines 121-131): iterate over the
grid in row-major order, keep the coordinates of the stable points. -/
def get_members (c : List (List Cplx)) (num_iterations : ℕ) : List (ℚ × ℚ) :=
  (c.flatten.filter (fun value => is_stable value num_iterations)).map
    (fun value => (value.re, value.im))

/-- State of the unused big-integer orbit iterator `Z` (src/main.rs lines
7-31). -/
structure Z where
  z : ℤ
  c : ℤ
  limit : Option ℕ
  count : ℕ

/-- Embedding of `Iterator::next` for `Z` (src/main.rs lines 17-30): if a
limit is set and `count > limit`, stop; otherwise yield the current value and
step the recurrence `z ← z^2 + c`, incrementing `count`. -/
def Z.next (s : Z) : Option ℤ × Z :=
  let r := s.z
  match s.limit with
  | some limit =>
    if limit < s.count then (none, s)
    else (some r, { s with z := s.z ^ 2 + s.c, count := s.count + 1 })
  | none => (some r, { s with z := s.z ^ 2 + s.c, count := s.count + 1 })

/-- Builder for `Z` (src/main.rs lines 33-77); `Default` gives zero values
and no limit. -/
structure ZBuilder where
  z : ℤ
  candidate : ℤ
  limit : Option ℕ

def ZBuilder.new : ZBuilder := ⟨0, 0, none⟩

/-- Source method `ZBuilder::z` (renamed: a Lean method may not shadow the
field `z`). -/
def ZBuilder.withZ (self : ZBuilder) (z : ℤ) : ZBuilder :=
  ⟨z, self.candidate, self.limit⟩

/-- Source method `ZBuilder::c`. -/
def ZBuilder.withC (self : ZBuilder) (c : ℤ) : ZBuilder :=
  ⟨self.z, c, self.limit⟩

/-- Source method `ZBuilder::limit`. -/
def ZBuilder.withLimit (self : ZBuilder) (limit : ℕ) : ZBuilder :=
  ⟨self.z, self.candidate, some limit⟩

/-- Source method `ZBuilder::build`: the iterator starts with `count = 0`. -/
def ZBuilder.build (self : ZBuilder) : Z :=
  ⟨self.z, self.candidate, self.limit, 0⟩

/-- Embedding of `mandelbrot` (src/main.rs lines 79-81). -/
def mandelbrot (c : ℤ) : ZBuilder := (ZBuilder.new.withZ 0).withC c

/-- Embedding of `julia` (src/main.rs lines 83-85). -/
def julia (c p : ℤ) : ZBuilder := (ZBuilder.new.withZ c).withC p

/-- Materialisation of the iterator `Z`: collect the values yielded by
repeated calls to `next`, up to `fuel` calls. -/
def Z.toList : Z → ℕ → List ℤ
  | _, 0 => []
  | s, fuel + 1 =>
    match s.next with
    | (none, _) => []
    | (some r, s2) => s2.toList fuel |>.cons r

/-- Mathematical reference orbit `z_{n+1} = z_n^2 + c` with initial value
`z0`, over the integers. -/
def orbit (z0 c : ℤ) : ℕ → ℤ
  | 0 => z0
  | n + 1 => orbit z0 c n ^ 2 + c

/-! Helper lemmas. -/

theorem Cplx.mul_re (a b : Cplx) : (a * b).re = a.re * b.re - a.im * b.im := rfl

theorem Cplx.mul_im (a b : Cplx) : (a * b).im = a.re * b.im + a.im * b.re := rfl

theorem Cplx.add_re (a b : Cplx) : (a + b).re = a.re + b.re := rfl

theorem Cplx.add_im (a b : Cplx) : (a + b).im = a.im + b.im := rfl

theorem zIter_eq_iterate (c : Cplx) (n : ℕ) :
    zIter c n = (fun z => z * z + c)^[n] (⟨0, 0⟩ : Cplx) := by
  induction n with
  | zero => rfl
  | succ n ih => rw [Function.iterate_succ_apply', ← ih, zIter]

theorem toC_zIter (c : Cplx) (n : ℕ) :
    (fun w : ℂ => w * w + ⟨(c.re : ℝ), (c.im : ℝ)⟩)^[n] 0 =
      ⟨((zIter c n).re : ℝ), ((zIter c n).im : ℝ)⟩ := by
  induction n with
  | zero =>
    apply Complex.ext <;> simp [zIter]
  | succ n ih =>
    rw [Function.iterate_succ_apply', ih]
    apply Complex.ext <;>
      simp [zIter, Complex.add_re, Complex.add_im, Complex.mul_re, Complex.mul_im,
        Cplx.mul_re, Cplx.mul_im, Cplx.add_re, Cplx.add_im] <;> push_cast <;> ring

theorem normSq_toC (z : Cplx) :
    Complex.normSq ⟨(z.re : ℝ), (z.im : ℝ)⟩ = ((Cplx.normSq z : ℚ) : ℝ) := by
  rw [Complex.normSq_mk, Cplx.normSq]
  push_cast
  ring

theorem is_stable_iff_abs (c : Cplx) (n : ℕ) :
    is_stable c n = true ↔
      Complex.abs ⟨((zIter c n).re : ℝ), ((zIter c n).im : ℝ)⟩ ≤ 2 := by
  rw [is_stable, decide_eq_true_eq]
  have h2 : Complex.abs ⟨((zIter c n).re : ℝ), ((zIter c n).im : ℝ)⟩ ≤ 2 ↔
      Complex.abs ⟨((zIter c n).re : ℝ), ((zIter c n).im : ℝ)⟩ ^ 2 ≤ 2 ^ 2 :=
    (pow_le_pow_iff_left₀ (Complex.abs.nonneg _) (by norm_num) (by norm_num)).symm
  rw [h2, Complex.sq_abs, normSq_toC]
  constructor
  · intro h
    calc ((Cplx.normSq (zIter c n) : ℚ) : ℝ) ≤ ((2 ^ 2 : ℚ) : ℝ) := by exact_mod_cast h
    _ = 2 ^ 2 := by norm_num
  · intro h
    have : ((Cplx.normSq (zIter c n) : ℚ) : ℝ) ≤ ((2 ^ 2 : ℚ) : ℝ) := by
      calc ((Cplx.normSq (zIter c n) : ℚ) : ℝ) ≤ 2 ^ 2 := h
      _ = ((2 ^ 2 : ℚ) : ℝ) := by norm_num
    exact_mod_cast this

theorem is_stable_eq_false_iff (c : Cplx) (n : ℕ) :
    is_stable c n = false ↔
      2 < Complex.abs ⟨((zIter c n).re : ℝ), ((zIter c n).im : ℝ)⟩ := by
  rw [← not_le, ← is_stable_iff_abs]
  cases h : is_stable c n <;> simp [h]

theorem abs_escape_step (c z : ℂ) (hz : 2 < Complex.abs z)
    (hc : Complex.abs c ≤ Complex.abs z) :
    Complex.abs z < Complex.abs (z * z + c) := by
  have h1 : Complex.abs (z * z) ≤ Complex.abs (z * z + c) + Complex.abs c := by
    calc Complex.abs (z * z) = Complex.abs ((z * z + c) + -c) := by ring_nf
    _ ≤ Complex.abs (z * z + c) + Complex.abs (-c) := Complex.abs.add_le _ _
    _ = Complex.abs (z * z + c) + Complex.abs c := by rw [Complex.abs.map_neg]
  have h2 : Complex.abs (z * z) = Complex.abs z * Complex.abs z :=
    Complex.abs.map_mul z z
  nlinarith [h1, h2, hz, hc]

theorem abs_orbit_big_c (c : ℂ) (hc : 2 < Complex.abs c) :
    ∀ n, 1 ≤ n →
      Complex.abs c ≤ Complex.abs ((fun w : ℂ => w * w + c)^[n] 0) ∧
        2 < Complex.abs ((fun w : ℂ => w * w + c)^[n] 0) := by
  intro n hn
  induction n, hn using Nat.le_induction with
  | base =>
    have h1 : (fun w : ℂ => w * w + c)^[1] 0 = c := by
      simp
  
    rw [h1]
    exact ⟨le_refl _, hc⟩
  | succ n hn ih =>
    have hstep : (fun w : ℂ => w * w + c)^[n + 1] 0 =
        (fun w : ℂ => w * w + c)^[n] 0 * (fun w : ℂ => w * w + c)^[n] 0 + c := by
      rw [Function.iterate_succ_apply']
    have hlt := abs_escape_step c _ ih.2 ih.1
    rw [hstep]
    exact ⟨le_trans ih.1 (le_of_lt hlt), lt_trans ih.2 hlt⟩

theorem abs_orbit_one_step (c : ℂ) (n : ℕ)
    (h : 2 < Complex.abs ((fun w : ℂ => w * w + c)^[n] 0)) :
    2 < Complex.abs ((fun w : ℂ => w * w + c)^[n + 1] 0) := by
  have hstep : (fun w : ℂ => w * w + c)^[n + 1] 0 =
      (fun w : ℂ => w * w + c)^[n] 0 * (fun w : ℂ => w * w + c)^[n] 0 + c := by
    rw [Function.iterate_succ_apply']
  rcases le_or_lt (Complex.abs c) 2 with hc | hc
  · have hlt := abs_escape_step c _ h (le_trans hc (le_of_lt h))
    rw [hstep]
    exact lt_trans h hlt
  · match n with
    | 0 =>
      exfalso
      simp at h
      exact absurd h (by norm_num)
    | m + 1 =>
      have hb := abs_orbit_big_c c hc (m + 1) (Nat.le_add_left 1 m)
      have hlt := abs_escape_step c _ h hb.1
      rw [hstep]
      exact lt_trans h hlt

theorem abs_orbit_mono (c : ℂ) {n m : ℕ} (hnm : n ≤ m)
    (h : 2 < Complex.abs ((fun w : ℂ => w * w + c)^[n] 0)) :
    2 < Complex.abs ((fun w : ℂ => w * w + c)^[m] 0) := by
  induction m, hnm using Nat.le_induction with
  | base => exact h
  | succ m hm ih => exact abs_orbit_one_step c m ih

theorem is_stable_escape_mono (c : Cplx) {n m : ℕ} (hnm : n ≤ m)
    (h : is_stable c n = false) : is_stable c m = false := by
  rw [is_stable_eq_false_iff] at h ⊢
  rw [← toC_zIter] at h ⊢
  exact abs_orbit_mono _ hnm h

/-- Invariant rectangle for the parameter `-1/8 + (3/10)i`: the whole orbit
stays inside `[-1/2, 1/5] × [-3/10, 3/5]`, hence never escapes. -/
theorem zIter_c0_in_box (n : ℕ) :
    -1/2 ≤ (zIter ⟨-1/8, 3/10⟩ n).re ∧ (zIter ⟨-1/8, 3/10⟩ n).re ≤ 1/5 ∧
      -3/10 ≤ (zIter ⟨-1/8, 3/10⟩ n).im ∧ (zIter ⟨-1/8, 3/10⟩ n).im ≤ 3/5 := by
  induction n with
  | zero =>
    refine ⟨by norm_num [zIter], by norm_num [zIter], by norm_num [zIter],
      by norm_num [zIter]⟩
  | succ n ih =>
    obtain ⟨hx1, hx2, hy1, hy2⟩ := ih
    set x := (zIter ⟨-1/8, 3/10⟩ n).re with hxdef
    set y := (zIter ⟨-1/8, 3/10⟩ n).im with hydef
    have hre : (zIter ⟨-1/8, 3/10⟩ (n + 1)).re = x * x - y * y + (-1/8) := by
      rw [zIter, Cplx.add_re, Cplx.mul_re]
    have him : (zIter ⟨-1/8, 3/10⟩ (n + 1)).im = x * y + y * x + 3/10 := by
      rw [zIter, Cplx.add_im, Cplx.mul_im]
    have h1 : (0:ℚ) ≤ x + 1/2 := by linarith
    have h2 : (0:ℚ) ≤ 1/5 - x := by linarith
    have h3 : (0:ℚ) ≤ y + 3/10 := by linarith
    have h4 : (0:ℚ) ≤ 3/5 - y := by linarith
    have h5 : (0:ℚ) ≤ y + 3/5 := by linarith
    have h6 : (0:ℚ) ≤ 1/2 - x := by linarith
    refine ⟨?_, ?_, ?_, ?_⟩
    · rw [hre]
      nlinarith [mul_nonneg h4 h5, sq_nonneg x]
    · rw [hre]
      nlinarith [mul_nonneg h1 h6, sq_nonneg y]
    · rw [him]
      nlinarith [mul_nonneg h1 h3, mul_nonneg h2 h4]
    · rw [him]
      nlinarith [mul_nonneg h1 h4, mul_nonneg h2 h3]

theorem is_stable_c0 (n : ℕ) : is_stable ⟨-1/8, 3/10⟩ n = true := by
  obtain ⟨hx1, hx2, hy1, hy2⟩ := zIter_c0_in_box n
  rw [is_stable, decide_eq_true_eq, Cplx.normSq]
  nlinarith [hx1, hx2, hy1, hy2]

/-- Characterisation of membership in the stable-point list. -/
theorem mem_get_members {g : List (List Cplx)} {n : ℕ} {p : ℚ × ℚ} :
    p ∈ get_members g n ↔
      ∃ z, (z ∈ g.flatten ∧ is_stable z n = true) ∧ (z.re, z.im) = p := by
  simp only [get_members, List.mem_map, List.mem_filter, List.mem_flatten]

theorem linspace_length (a b : ℚ) (n : ℕ) : (linspace a b n).length = n := by
  simp [linspace]

theorem linspace_getD (a b : ℚ) {n i : ℕ} (h : i < n) :
    (linspace a b n).getD i 0 =
      a + (if 1 < n then (b - a) / ((n : ℚ) - 1) else 0) * (i : ℚ) := by
  simp only [linspace, List.getD_eq_getElem?_getD, List.getElem?_map,
    List.getElem?_range h, Option.map_some', Option.getD_some]

theorem linspace_head (a b : ℚ) {n : ℕ} (h : 0 < n) :
    (linspace a b n).getD 0 0 = a := by
  rw [linspace_getD a b h]
  simp

theorem linspace_last (a b : ℚ) {n : ℕ} (h : 2 ≤ n) :
    (linspace a b n).getLast? = some b := by
  have hlen : (linspace a b n).length = n := linspace_length a b n
  have hpos : 0 < n := lt_of_lt_of_le (by norm_num) h
  have hne : (n : ℚ) - 1 ≠ 0 := by
    have : (2 : ℚ) ≤ (n : ℚ) := by exact_mod_cast h
    linarith
  rw [List.getLast?_eq_getElem?, hlen]
  have hidx : n - 1 < n := Nat.sub_lt hpos (by norm_num)
  rw [List.getElem?_eq_getElem (by rw [hlen]; exact hidx)]
  congr 1
  have := linspace_getD a b hidx
  rw [List.getD_eq_getElem?_getD, List.getElem?_eq_getElem (by rw [hlen]; exact hidx)] at this
  simp only [Option.getD_some] at this
  rw [this, if_pos (lt_of_lt_of_le (by norm_num) h)]
  have hcast : ((n - 1 : ℕ) : ℚ) = (n : ℚ) - 1 := by
    have h1 : 1 ≤ n := le_trans (by norm_num) h
    push_cast [Nat.cast_sub h1]
    ring
  rw [hcast, div_mul_cancel₀ _ hne]
  ring

theorem linspace_spacing (a b : ℚ) {n j : ℕ} (h : j + 1 < n) :
    (linspace a b n).getD (j + 1) 0 - (linspace a b n).getD j 0 =
      (b - a) / ((n : ℚ) - 1) := by
  have h1 : 1 < n := by omega
  rw [linspace_getD a b h, linspace_getD a b (by omega : j < n), if_pos h1]
  push_cast
  ring

theorem complex_matrix_getD (x_min x_max y_min y_max : ℚ) (d : ℤ) {i j : ℕ}
    (hi : i < height_samples y_min y_max d) (hj : j < width_samples x_min x_max d) :
    ((complex_matrix x_min x_max y_min y_max d).getD i []).getD j ⟨0, 0⟩ =
      ⟨(linspace x_min x_max (width_samples x_min x_max d)).getD j 0,
        (linspace y_min y_max (height_samples y_min y_max d)).getD i 0⟩ := by
  have hlen_im : (linspace y_min y_max (height_samples y_min y_max d)).length =
      height_samples y_min y_max d := linspace_length _ _ _
  have hlen_re : (linspace x_min x_max (width_samples x_min x_max d)).length =
      width_samples x_min x_max d := linspace_length _ _ _
  have hi2 : i < (linspace y_min y_max (height_samples y_min y_max d)).length := by
    rw [hlen_im]; exact hi
  have hj2 : j < (linspace x_min x_max (width_samples x_min x_max d)).length := by
    rw [hlen_re]; exact hj
  have hrow : (complex_matrix x_min x_max y_min y_max d).getD i [] =
      List.map
        (fun re_val => (⟨re_val,
          (linspace y_min y_max (height_samples y_min y_max d)).getD i 0⟩ : Cplx))
        (linspace x_min x_max (width_samples x_min x_max d)) := by
    simp only [complex_matrix]
    rw [List.getD_eq_getElem?_getD, List.getElem?_map, List.getElem?_eq_getElem hi2]
    simp only [Option.map_some', Option.getD_some]
    rw [List.getD_eq_getElem _ _ hi2]
  have hj3 : j < (List.map
      (fun re_val => (⟨re_val,
        (linspace y_min y_max (height_samples y_min y_max d)).getD i 0⟩ : Cplx))
      (linspace x_min x_max (width_samples x_min x_max d))).length := by
    rw [List.length_map]; exact hj2
  rw [hrow, List.getD_eq_getElem?_getD, List.getElem?_eq_getElem hj3]
  simp only [Option.getD_some]
  rw [List.getElem_map, List.getD_eq_getElem _ _ hj2]

theorem orbit_shift (z0 c : ℤ) (n : ℕ) :
    orbit z0 c (n + 1) = orbit (z0 ^ 2 + c) c n := by
  induction n with
  | zero => rfl
  | succ n ih => rw [orbit, ih, orbit]

/-- With a limit `L` configured and current count `k ≤ L`, the iterator yields
exactly the `L + 1 - k` values `orbit z0 c 0, …, orbit z0 c (L - k)` before
stopping, provided enough fuel. -/
theorem Z_toList_limited (c : ℤ) (L : ℕ) :
    ∀ (fuel : ℕ) (z0 : ℤ) (k : ℕ), k ≤ L → L + 1 - k < fuel →
      Z.toList ⟨z0, c, some L, k⟩ fuel = (List.range (L + 1 - k)).map (orbit z0 c) := by
  intro fuel
  induction fuel with
  | zero => intro z0 k hk hf; omega
  | succ fuel ih =>
    intro z0 k hk hf
    have hnext : (Z.toList ⟨z0, c, some L, k⟩ (fuel + 1)) =
        z0 :: Z.toList ⟨z0 ^ 2 + c, c, some L, k + 1⟩ fuel := by
      simp [Z.toList, Z.next, Nat.not_lt.mpr hk]
    rw [hnext]
    rcases Nat.lt_or_ge k L with hkL | hkL
    · have hrec := ih (z0 ^ 2 + c) (k + 1) hkL (by omega)
      rw [hrec]
      have hm : L + 1 - k = (L - k) + 1 := by omega
      have hm2 : L + 1 - (k + 1) = L - k := by omega
      rw [hm, hm2, List.range_succ_eq_map, List.map_cons, List.map_map]
      congr 1
      apply List.map_congr_left
      intro x _
      simp only [Function.comp_apply, Nat.succ_eq_add_one]
      rw [← orbit_shift]
    · have hkeq : k = L := le_antisymm hk hkL
      have hstop : Z.toList ⟨z0 ^ 2 + c, c, some L, k + 1⟩ fuel = [] := by
        cases fuel with
        | zero => rfl
        | succ f =>
          have hgt : L < k + 1 := by omega
          simp [Z.toList, Z.next, hgt]
      rw [hstop]
      have h1 : L + 1 - k = 1 := by omega
      rw [h1]
      rfl

/-! Concrete evaluations used by the scenario claims. -/

theorem width_samples_c8 : width_samples (-2) (1/2) 2 = 5 := by
  norm_num [width_samples, usize_of]
  omega

theorem height_samples_c8 : height_samples (-3/2) (3/2) 2 = 6 := by
  norm_num [height_samples, usize_of]
  omega

theorem linspace_re_c8 : linspace (-2) (1/2) 5 = [-2, -11/8, -3/4, -1/8, 1/2] := by
  norm_num [linspace, List.range_succ]

theorem linspace_im_c8 :
    linspace (-3/2) (3/2) 6 = [-3/2, -9/10, -3/10, 3/10, 9/10, 3/2] := by
  norm_num [linspace, List.range_succ]

theorem complex_matrix_c8 :
    complex_matrix (-2) (1/2) (-3/2) (3/2) 2 =
      [[⟨-2, -3/2⟩, ⟨-11/8, -3/2⟩, ⟨-3/4, -3/2⟩, ⟨-1/8, -3/2⟩, ⟨1/2, -3/2⟩],
       [⟨-2, -9/10⟩, ⟨-11/8, -9/10⟩, ⟨-3/4, -9/10⟩, ⟨-1/8, -9/10⟩, ⟨1/2, -9/10⟩],
       [⟨-2, -3/10⟩, ⟨-11/8, -3/10⟩, ⟨-3/4, -3/10⟩, ⟨-1/8, -3/10⟩, ⟨1/2, -3/10⟩],
       [⟨-2, 3/10⟩, ⟨-11/8, 3/10⟩, ⟨-3/4, 3/10⟩, ⟨-1/8, 3/10⟩, ⟨1/2, 3/10⟩],
       [⟨-2, 9/10⟩, ⟨-11/8, 9/10⟩, ⟨-3/4, 9/10⟩, ⟨-1/8, 9/10⟩, ⟨1/2, 9/10⟩],
       [⟨-2, 3/2⟩, ⟨-11/8, 3/2⟩, ⟨-3/4, 3/2⟩, ⟨-1/8, 3/2⟩, ⟨1/2, 3/2⟩]] := by
  simp only [complex_matrix, width_samples_c8, height_samples_c8,
    linspace_re_c8, linspace_im_c8, List.map_cons, List.map_nil]

theorem c8_grid_re_ne_zero :
    ∀ z ∈ (complex_matrix (-2) (1/2) (-3/2) (3/2) 2).flatten, z.re ≠ 0 := by
  rw [complex_matrix_c8]
  intro z hz
  fin_cases hz <;> norm_num

theorem is_stable_corner_false : is_stable ⟨1/2, 3/2⟩ 2 = false := by
  simp only [is_stable, zIter, Cplx.normSq_mk, Cplx.mk_mul_mk, Cplx.mk_add_mk]
  norm_num

theorem complex_matrix_dims (x_min x_max y_min y_max : ℚ) (d : ℤ) :
    (complex_matrix x_min x_max y_min y_max d).length =
      height_samples y_min y_max d ∧
    ∀ row ∈ complex_matrix x_min x_max y_min y_max d,
      row.length = width_samples x_min x_max d := by
  constructor
  · simp only [complex_matrix, List.length_map]
    exact linspace_length _ _ _
  · intro row hrow
    simp only [complex_matrix, List.mem_map] at hrow
    obtain ⟨iv, _, rfl⟩ := hrow
    simp only [List.length_map]
    exact linspace_length _ _ _

/-! Claim theorems. -/

/-- C1: for every complex point `c` and positive iteration count `n`, the
classifier starts from `z = 0+0i`, performs exactly `n` iterations of
`z ← z·z + c` with no early exit, and returns stable exactly when the
Euclidean norm of the final iterate is at most 2.0, the boundary value
included (a final squared norm of exactly `2^2` is classified stable). -/
theorem C1_classify_exact_iterations_inclusive_threshold (c : Cplx) (n : ℕ)
    (h : 0 < n) :
    zIter c n = (fun z => z * z + c)^[n] (⟨0, 0⟩ : Cplx) ∧
    (is_stable c n = true ↔
      Complex.abs ⟨((zIter c n).re : ℝ), ((zIter c n).im : ℝ)⟩ ≤ 2) ∧
    (Cplx.normSq (zIter c n) = 2 ^ 2 → is_stable c n = true) := by
  refine ⟨zIter_eq_iterate c n, is_stable_iff_abs c n, fun hb => ?_⟩
  rw [is_stable, decide_eq_true_eq, hb]

theorem C1_classify_exact_iterations_inclusive_threshold_witness :
    0 < 1 ∧
    (zIter ⟨2, 0⟩ 1 = (fun z => z * z + ⟨2, 0⟩)^[1] (⟨0, 0⟩ : Cplx) ∧
      (is_stable ⟨2, 0⟩ 1 = true ↔
        Complex.abs ⟨((zIter ⟨2, 0⟩ 1).re : ℝ), ((zIter ⟨2, 0⟩ 1).im : ℝ)⟩ ≤ 2) ∧
      (Cplx.normSq (zIter ⟨2, 0⟩ 1) = 2 ^ 2 → is_stable ⟨2, 0⟩ 1 = true)) :=
  ⟨by norm_num,
    C1_classify_exact_iterations_inclusive_threshold ⟨2, 0⟩ 1 (by norm_num)⟩

/-- C2 counterexample: for the well-formed region `[0, 7/4] × [0, 7/4]` at
density 1, the sampled grid has exactly one column per row, while the
rounding formula of the claim predicts `round(7/4) = 2` columns: the source
truncates (`as usize`), it does not round. -/
theorem C2_rounding_counterexample :
    width_samples 0 (7/4) 1 = 1 ∧
    (complex_matrix 0 (7/4) 0 (7/4) 1).map List.length = [1] ∧
    (round (((7/4 : ℚ) - 0) * ((1 : ℤ) : ℚ))).toNat = 2 := by
  have hw : width_samples 0 (7/4) 1 = 1 := by norm_num [width_samples, usize_of]
  have hh : height_samples 0 (7/4) 1 = 1 := by
    norm_num [height_samples, usize_of]
  have hre : linspace 0 (7/4) 1 = [0] := by norm_num [linspace, List.range_succ]
  refine ⟨hw, ?_, ?_⟩
  · simp only [complex_matrix, hw, hh, hre, List.map_cons, List.map_nil]
    rfl
  · norm_num [round_eq]
    omega

/-- C2 amended: the sampled grid has `height_samples` rows, each of
`width_samples` columns, where both counts arise by saturating truncation
(Rust `as usize`, i.e. the floor for nonnegative products) of
`(span · density)` — not by rounding. -/
theorem C2_truncated_dimensions (x_min x_max y_min y_max : ℚ) (d : ℤ)
    (hx : x_min < x_max) (hy : y_min < y_max) (hd : 0 < d) :
    (complex_matrix x_min x_max y_min y_max d).length =
      height_samples y_min y_max d ∧
    (∀ row ∈ complex_matrix x_min x_max y_min y_max d,
      row.length = width_samples x_min x_max d) ∧
    width_samples x_min x_max d = (⌊(x_max - x_min) * (d : ℚ)⌋).toNat ∧
    height_samples y_min y_max d = (⌊(y_max - y_min) * (d : ℚ)⌋).toNat :=
  ⟨(complex_matrix_dims x_min x_max y_min y_max d).1,
    (complex_matrix_dims x_min x_max y_min y_max d).2, rfl, rfl⟩

theorem C2_truncated_dimensions_witness :
    ((0 : ℚ) < 1 ∧ (0 : ℤ) < 10) ∧
    (complex_matrix 0 1 0 1 10).length = height_samples 0 1 10 ∧
    (∀ row ∈ complex_matrix 0 1 0 1 10, row.length = width_samples 0 1 10) :=
  ⟨⟨by norm_num, by norm_num⟩,
    (C2_truncated_dimensions 0 1 0 1 10 (by norm_num) (by norm_num)
      (by norm_num)).1,
    (C2_truncated_dimensions 0 1 0 1 10 (by norm_num) (by norm_num)
      (by norm_num)).2.1⟩

/-- C3 counterexample: for the well-formed region `[0, 3/2] × [0, 3/2]` at
density 1 the real axis has a single sample, whose value is `x_min = 0`; the
last sampled value is therefore not `x_max = 3/2`, refuting unconditional
endpoint inclusivity. -/
theorem C3_single_sample_endpoint_counterexample :
    ((0 : ℚ) < 3/2 ∧ (0 : ℤ) < 1) ∧
    ¬ (linspace 0 (3/2) (width_samples 0 (3/2) 1)).getLast? = some (3/2) := by
  have hw : width_samples 0 (3/2) 1 = 1 := by norm_num [width_samples, usize_of]
  have hls : linspace 0 (3/2) 1 = [0] := by norm_num [linspace, List.range_succ]
  refine ⟨⟨by norm_num, by norm_num⟩, ?_⟩
  rw [hw, hls, List.getLast?_singleton]
  norm_num

/-- C3 amended: grid entry `(i, j)` is `complex(re[j], im[i])`; each axis is
an arithmetic progression with constant spacing `span/(samples - 1)`; the
first sample of each axis equals the lower bound, and the last sample equals
the upper bound whenever the axis has at least two samples (with exactly one
sample, the single value is the lower bound); `[0,1] × [0,1]` at density 10
yields exactly a 10×10 grid. -/
theorem C3_inclusive_linspace_sampling (x_min x_max y_min y_max : ℚ) (d : ℤ)
    (hx : x_min < x_max) (hy : y_min < y_max) (hd : 0 < d) :
    (∀ i j, i < height_samples y_min y_max d → j < width_samples x_min x_max d →
      ((complex_matrix x_min x_max y_min y_max d).getD i []).getD j ⟨0, 0⟩ =
        ⟨(linspace x_min x_max (width_samples x_min x_max d)).getD j 0,
          (linspace y_min y_max (height_samples y_min y_max d)).getD i 0⟩) ∧
    (0 < width_samples x_min x_max d →
      (linspace x_min x_max (width_samples x_min x_max d)).getD 0 0 = x_min) ∧
    (2 ≤ width_samples x_min x_max d →
      (linspace x_min x_max (width_samples x_min x_max d)).getLast? =
        some x_max) ∧
    (0 < height_samples y_min y_max d →
      (linspace y_min y_max (height_samples y_min y_max d)).getD 0 0 = y_min) ∧
    (2 ≤ height_samples y_min y_max d →
      (linspace y_min y_max (height_samples y_min y_max d)).getLast? =
        some y_max) ∧
    (∀ j, j + 1 < width_samples x_min x_max d →
      (linspace x_min x_max (width_samples x_min x_max d)).getD (j + 1) 0 -
        (linspace x_min x_max (width_samples x_min x_max d)).getD j 0 =
        (x_max - x_min) / ((width_samples x_min x_max d : ℚ) - 1)) ∧
    (∀ i, i + 1 < height_samples y_min y_max d →
      (linspace y_min y_max (height_samples y_min y_max d)).getD (i + 1) 0 -
        (linspace y_min y_max (height_samples y_min y_max d)).getD i 0 =
        (y_max - y_min) / ((height_samples y_min y_max d : ℚ) - 1)) ∧
    ((complex_matrix 0 1 0 1 10).length = 10 ∧
      ∀ row ∈ complex_matrix 0 1 0 1 10, row.length = 10) := by
  have hw10 : width_samples 0 1 10 = 10 := by
    norm_num [width_samples, usize_of]
    omega
  have hh10 : height_samples 0 1 10 = 10 := by
    norm_num [height_samples, usize_of]
    omega
  refine ⟨fun i j hi hj => complex_matrix_getD x_min x_max y_min y_max d hi hj,
    fun h => linspace_head _ _ h,
    fun h => linspace_last _ _ h,
    fun h => linspace_head _ _ h,
    fun h => linspace_last _ _ h,
    fun j hj => linspace_spacing _ _ hj,
    fun i hi => linspace_spacing _ _ hi,
    ?_, ?_⟩
  · rw [(complex_matrix_dims 0 1 0 1 10).1, hh10]
  · intro row hrow
    rw [(complex_matrix_dims 0 1 0 1 10).2 row hrow, hw10]

theorem C3_inclusive_linspace_sampling_witness :
    ((0 : ℚ) < 1 ∧ (0 : ℤ) < 10) ∧
    ((complex_matrix 0 1 0 1 10).length = 10 ∧
      ∀ row ∈ complex_matrix 0 1 0 1 10, row.length = 10) :=
  ⟨⟨by norm_num, by norm_num⟩,
    (C3_inclusive_linspace_sampling 0 1 0 1 10 (by norm_num) (by norm_num)
      (by norm_num)).2.2.2.2.2.2.2⟩

/-- C4: the stable-point list is the row-major traversal of the grid,
filtered by the classifier and mapped to coordinate pairs; it is an
order-preserving sublist of the grid's coordinate sequence, every member
comes from a stable grid element, and its length never exceeds the number of
grid points. -/
theorem C4_members_subset_in_traversal_order (g : List (List Cplx)) (n : ℕ) :
    get_members g n =
      (g.flatten.filter (fun z => is_stable z n)).map (fun z => (z.re, z.im)) ∧
    List.Sublist (get_members g n) (g.flatten.map (fun z => (z.re, z.im))) ∧
    (∀ p ∈ get_members g n,
      ∃ z, z ∈ g.flatten ∧ is_stable z n = true ∧ p = (z.re, z.im)) ∧
    (get_members g n).length ≤ g.flatten.length := by
  refine ⟨rfl, ?_, ?_, ?_⟩
  · exact List.Sublist.map _ (List.filter_sublist _)
  · intro p hp
    obtain ⟨z, ⟨hz, hs⟩, hco⟩ := mem_get_members.mp hp
    exact ⟨z, hz, hs, hco.symm⟩
  · calc (get_members g n).length
        = (g.flatten.filter (fun z => is_stable z n)).length := by
          rw [get_members, List.length_map]
    _ ≤ g.flatten.length := List.length_filter_le _ _

/-- C5: whenever one of the two sample counts truncates to zero (for example
at density 0), the grid is empty — no rows at all, or every row empty — and
the classification of that grid is the empty list; no error arises, the
functions are total. -/
theorem C5_degenerate_axis_yields_empty (x_min x_max y_min y_max : ℚ) (d : ℤ)
    (n : ℕ)
    (h : width_samples x_min x_max d = 0 ∨ height_samples y_min y_max d = 0) :
    (complex_matrix x_min x_max y_min y_max d = [] ∨
      ∀ row ∈ complex_matrix x_min x_max y_min y_max d, row = []) ∧
    (complex_matrix x_min x_max y_min y_max d).flatten = [] ∧
    get_members (complex_matrix x_min x_max y_min y_max d) n = [] := by
  have hmain : complex_matrix x_min x_max y_min y_max d = [] ∨
      ∀ row ∈ complex_matrix x_min x_max y_min y_max d, row = [] := by
    rcases h with hw | hh
    · right
      intro row hrow
      simp only [complex_matrix, List.mem_map] at hrow
      obtain ⟨iv, _, rfl⟩ := hrow
      rw [hw]
      rfl
    · left
      simp only [complex_matrix, hh]
      rfl
  have hflat : (complex_matrix x_min x_max y_min y_max d).flatten = [] := by
    rcases hmain with hnil | hrows
    · rw [hnil]
      rfl
    · exact List.flatten_eq_nil_iff.mpr hrows
  refine ⟨hmain, hflat, ?_⟩
  rw [get_members, hflat]
  rfl

theorem C5_degenerate_axis_yields_empty_witness :
    width_samples 0 1 0 = 0 ∧
    get_members (complex_matrix 0 1 0 1 0) 20 = [] :=
  ⟨by norm_num [width_samples, usize_of],
    (C5_degenerate_axis_yields_empty 0 1 0 1 0 20
      (Or.inl (by norm_num [width_samples, usize_of]))).2.2⟩

/-- C6: classification of a grid is a pure function of the grid and the
iteration count, so two invocations on identical inputs return identical
ordered output. -/
theorem C6_collect_stable_deterministic (g : List (List Cplx)) (n : ℕ) :
    get_members g n = get_members g n := rfl

/-- C7: escape is monotone — if the classifier reports unstable after `n`
iterations, it also reports unstable after every `m ≥ n` iterations; raising
the iteration count never reclassifies an escaped point as stable. -/
theorem C7_escape_is_monotone (c : Cplx) (n m : ℕ) (hnm : n ≤ m)
    (h : is_stable c n = false) : is_stable c m = false :=
  is_stable_escape_mono c hnm h

theorem C7_escape_is_monotone_witness :
    1 ≤ 2 ∧ is_stable ⟨3, 0⟩ 1 = false ∧ is_stable ⟨3, 0⟩ 2 = false := by
  have h1 : is_stable ⟨3, 0⟩ 1 = false := by
    simp only [is_stable, zIter, Cplx.normSq_mk, Cplx.mk_mul_mk, Cplx.mk_add_mk]
    norm_num
  exact ⟨by norm_num, h1, C7_escape_is_monotone ⟨3, 0⟩ 1 2 (by norm_num) h1⟩

/-- C8 counterexample: at density 2 the sampled real values are
`{-2, -11/8, -3/4, -1/8, 1/2}` — none equals 0 — so `(0, 0)` is not a grid
point and cannot belong to the stable-point list, contrary to the claimed
inclusion. -/
theorem C8_origin_not_sampled_counterexample :
    ((0 : ℚ), (0 : ℚ)) ∉
      get_members (complex_matrix (-2) (1/2) (-3/2) (3/2) 2) 20 := by
  intro hmem
  obtain ⟨z, ⟨hz, _⟩, hco⟩ := mem_get_members.mp hmem
  have hre : z.re = 0 := congrArg Prod.fst hco
  exact c8_grid_re_ne_zero z hz hre

/-- C8 amended: the region `[-2, 1/2] × [-3/2, 3/2]` at density 2 yields a
6-row × 5-column grid whose stable set at 20 iterations contains the interior
grid point `(-1/8, 3/10)` (the sampled point nearest the origin) and excludes
the far corner `(1/2, 3/2)`; the point `(0, 0)` itself is not sampled — no
grid point has zero real part. -/
theorem C8_small_grid_scenario_amended :
    ((-1/8 : ℚ), (3/10 : ℚ)) ∈
      get_members (complex_matrix (-2) (1/2) (-3/2) (3/2) 2) 20 ∧
    ((1/2 : ℚ), (3/2 : ℚ)) ∉
      get_members (complex_matrix (-2) (1/2) (-3/2) (3/2) 2) 20 ∧
    (∀ z ∈ (complex_matrix (-2) (1/2) (-3/2) (3/2) 2).flatten, z.re ≠ 0) ∧
    (complex_matrix (-2) (1/2) (-3/2) (3/2) 2).length = 6 ∧
    (∀ row ∈ complex_matrix (-2) (1/2) (-3/2) (3/2) 2, row.length = 5) := by
  refine ⟨?_, ?_, c8_grid_re_ne_zero, ?_, ?_⟩
  · apply mem_get_members.mpr
    refine ⟨⟨-1/8, 3/10⟩, ⟨?_, is_stable_c0 20⟩, rfl⟩
    rw [complex_matrix_c8]
    simp
  · intro hmem
    obtain ⟨z, ⟨hz, hs⟩, hco⟩ := mem_get_members.mp hmem
    have hzz : z = ⟨1/2, 3/2⟩ := by
      obtain ⟨zre, zim⟩ := z
      have h1 : zre = 1/2 := congrArg Prod.fst hco
      have h2 : zim = 3/2 := congrArg Prod.snd hco
      rw [h1, h2]
    rw [hzz] at hs
    have hf : is_stable ⟨1/2, 3/2⟩ 20 = false :=
      is_stable_escape_mono _ (by norm_num) is_stable_corner_false
    rw [hs] at hf
    exact Bool.noConfusion hf
  · rw [(complex_matrix_dims (-2) (1/2) (-3/2) (3/2) 2).1, height_samples_c8]
  · intro row hrow
    rw [(complex_matrix_dims (-2) (1/2) (-3/2) (3/2) 2).2 row hrow,
      width_samples_c8]

/-- C9 counterexample: with the limit configured to 0 the Mandelbrot-style
iterator yields one term (`z_0 = 0`), not at most zero terms: the bound in
the source is `count > limit`, so a limit of `L` admits `L + 1` yields. -/
theorem C9_at_most_limit_counterexample :
    (Z.toList (((mandelbrot 1).withLimit 0).build) 10).length = 1 ∧
    ¬ (Z.toList (((mandelbrot 1).withLimit 0).build) 10).length ≤ 0 := by
  have hm : ((mandelbrot 1).withLimit 0).build = (⟨0, 1, some 0, 0⟩ : Z) := rfl
  have h1 := Z_toList_limited 1 0 10 0 0 (le_refl 0) (by norm_num)
  simp only [Nat.sub_zero] at h1
  rw [hm, h1, List.length_map, List.length_range]
  exact ⟨rfl, by norm_num⟩

/-- C9 amended: with a configured limit `L` the generator is finite and
yields exactly `L + 1` terms, namely `z_0, …, z_L` of the recurrence
`z_{n+1} = z_n^2 + c` over the integers; the Mandelbrot-style constructor
fixes `z_0 = 0` with addend its parameter, the Julia-style constructor fixes
`z_0 = c` with addend its second parameter. -/
theorem C9_generator_yields_limit_plus_one (c p : ℤ) (L fuel : ℕ)
    (hfuel : L + 2 ≤ fuel) :
    Z.toList (((mandelbrot c).withLimit L).build) fuel =
      (List.range (L + 1)).map (orbit 0 c) ∧
    Z.toList (((julia c p).withLimit L).build) fuel =
      (List.range (L + 1)).map (orbit c p) ∧
    (Z.toList (((mandelbrot c).withLimit L).build) fuel).length = L + 1 ∧
    (Z.toList (((julia c p).withLimit L).build) fuel).length = L + 1 := by
  have hm : ((mandelbrot c).withLimit L).build = (⟨0, c, some L, 0⟩ : Z) := rfl
  have hj : ((julia c p).withLimit L).build = (⟨c, p, some L, 0⟩ : Z) := rfl
  have h1 := Z_toList_limited c L fuel 0 0 (Nat.zero_le L) (by omega)
  have h2 := Z_toList_limited p L fuel c 0 (Nat.zero_le L) (by omega)
  simp only [Nat.sub_zero] at h1 h2
  rw [hm, hj, h1, h2]
  refine ⟨rfl, rfl, ?_, ?_⟩ <;> rw [List.length_map, List.length_range]

theorem C9_generator_yields_limit_plus_one_witness :
    0 + 2 ≤ 5 ∧
    Z.toList (((mandelbrot 1).withLimit 0).build) 5 =
      (List.range 1).map (orbit 0 1) :=
  ⟨by norm_num, (C9_generator_yields_limit_plus_one 1 2 0 5 (by norm_num)).1⟩

/-- C10: with an iteration count of zero the loop body never runs, the final
value stays `0+0i`, its norm 0 is within the threshold, and every point is
classified stable. -/
theorem C10_zero_iterations_stable (c : Cplx) : is_stable c 0 = true := by
  simp only [is_stable, zIter, Cplx.normSq_mk]
  norm_num
